import Mathlib

set_option maxHeartbeats 1000000

namespace Seer

/-!
Shallow embedding of the seer memory dumper, translated from
src/linux/src/lib.rs (the library the seer binary uses; the older copy
src/src/linux/linux_seer.rs shares the mapping-parser logic verbatim).

Conventions of the embedding:
  * bytes are Nat values (the source reads u8 buffers);
  * addresses and sizes are Nat; Rust usize subtraction is modelled by
    checkedSub, which fails (like the overflow panic of a debug build)
    when it would underflow;
  * a Rust panic (expect / unwrap) is Except.error with the panic message;
  * the OS is an oracle: the text of /proc/pid/maps is a String argument,
    a read of target memory (open + seek + read_exact of n bytes) is a
    function Nat -> Nat -> Option (List Nat) returning none on failure,
    and read_exact's all-or-nothing contract is enforced by a length
    check in read_mem_slice;
  * log output (the info! lines of extracted strings) is collected into
    the returned list, since logging is the program's only output channel.
-/

/-- Printable-byte predicate of the string scanner in read_memory:
the source tests data[i].is_ascii() && data[i] >= 32 && data[i] <= 126. -/
def printable (b : Nat) : Bool :=
  decide (b ≤ 127) && decide (32 ≤ b) && decide (b ≤ 126)

/-- Length of the consecutive printable prefix of a byte list: the inner
while loop of read_memory, counting string_len from the current index. -/
def countRun0 : List Nat → Nat
  | [] => 0
  | b :: rest => if printable b then countRun0 rest + 1 else 0

/-- Run length starting at index i of data. -/
def countRun (data : List Nat) (i : Nat) : Nat := countRun0 (data.drop i)

/-- Index after one iteration of the outer while loop of read_memory:
i advances past the run, and by exactly one byte when the run is empty
(the source's `if i == string_start` step). -/
def nextPos (data : List Nat) (i : Nat) : Nat :=
  if countRun data i = 0 then i + 1 else i + countRun data i

/-- The outer while loop of read_memory from index i, as structural
recursion on a fuel argument. Each iteration strictly increases i (see
nextPos), so data.length - i iterations always suffice; scanAux with any
fuel at least that bound computes the loop exactly. Each run of length at
least 4 is reported as (base + start index, run bytes). -/
def scanAux (base : Nat) (data : List Nat) : Nat → Nat → List (Nat × List Nat)
  | _, 0 => []
  | i, fuel + 1 =>
    if i < data.length then
      (if 4 ≤ countRun data i then
        [(base + i, (data.drop i).take (countRun data i))]
      else []) ++ scanAux base data (nextPos data i) fuel
    else []

/-- String extraction over a whole buffer read from address base: the
scanning part of read_memory (the source logs each hit at
start_addr + string_start). -/
def extract_strings (base : Nat) (data : List Nat) : List (Nat × List Nat) :=
  scanAux base data 0 data.length

/-- One parsed line of /proc/pid/maps: the Maps struct of the source.
The field end is named end_ because end is a Lean keyword. -/
structure Maps where
  start : Nat
  end_ : Nat
  r : Bool
  w : Bool
  x : Bool
  p : Bool
  s : Bool
  offset : Nat
  device : String
  inode : String
  pathname : Option String
deriving DecidableEq, Repr

/-- Rust str::get on a byte range a..b: some slice when the range is
within bounds (a ≤ b ≤ length), none otherwise. The source only applies
it to ASCII permission strings, where byte and character indices agree. -/
def strGet (s : String) (a b : Nat) : Option String :=
  if a ≤ b ∧ b ≤ s.length then some (String.mk ((s.toList.drop a).take (b - a)))
  else none

/-- Rust str::split_once over a character list: split at the first
occurrence of sep, none when sep does not occur. -/
def splitOnceAux (sep : Char) : List Char → Option (List Char × List Char)
  | [] => none
  | c :: cs =>
    if c = sep then some ([], cs)
    else
      match splitOnceAux sep cs with
      | none => none
      | some (a, b) => some (c :: a, b)

/-- Rust str::split_once on a String. -/
def splitOnce (s : String) (sep : Char) : Option (String × String) :=
  match splitOnceAux sep s.toList with
  | none => none
  | some (a, b) => some (String.mk a, String.mk b)

/-- Value of one hexadecimal digit, as Rust char::to_digit(16): both
cases of the letters are accepted. -/
def hexVal (c : Char) : Option Nat :=
  if '0' ≤ c ∧ c ≤ '9' then some (c.toNat - 48)
  else if 'a' ≤ c ∧ c ≤ 'f' then some (c.toNat - 87)
  else if 'A' ≤ c ∧ c ≤ 'F' then some (c.toNat - 55)
  else none

/-- Digit-accumulation loop of usize::from_str_radix(s, 16), with the
64-bit overflow check of the Rust implementation. -/
def parseHexGo : List Char → Nat → Except String Nat
  | [], acc => Except.ok acc
  | c :: rest, acc =>
    match hexVal c with
    | none => Except.error "invalid digit found in string"
    | some v =>
      if acc * 16 + v < 2 ^ 64 then parseHexGo rest (acc * 16 + v)
      else Except.error "number too large to fit in target type"

/-- Rust usize::from_str_radix(s, 16): an optional leading + sign, then a
nonempty string of hexadecimal digits (a leading - is no digit and fails,
as it does for Rust's unsigned types). -/
def fromStrRadix16 (s : String) : Except String Nat :=
  let cs := s.toList
  let ds := match cs with
    | '+' :: rest => rest
    | _ => cs
  if ds.isEmpty then Except.error "cannot parse integer from empty string"
  else parseHexGo ds 0

/-- Rust str::split_whitespace over a character list, accumulating the
current token in reverse: whitespace-separated tokens, empties skipped. -/
def splitWsAux : List Char → List Char → List String
  | [], acc => if acc.isEmpty then [] else [String.mk acc.reverse]
  | c :: cs, acc =>
    if c.isWhitespace then
      if acc.isEmpty then splitWsAux cs []
      else String.mk acc.reverse :: splitWsAux cs []
    else splitWsAux cs (c :: acc)

/-- Rust str::split_whitespace on a String. -/
def splitWhitespace (s : String) : List String := splitWsAux s.toList []

/-- Rust str::lines over a character list (no trailing empty line after a
final newline; the \r of a \r\n ending is not stripped, which never
matters for /proc text). -/
def rustLinesAux : List Char → List Char → List String
  | [], acc => if acc.isEmpty then [] else [String.mk acc.reverse]
  | c :: cs, acc =>
    if c = '\n' then String.mk acc.reverse :: rustLinesAux cs []
    else rustLinesAux cs (c :: acc)

/-- Rust str::lines on a String. -/
def rustLines (s : String) : List String := rustLinesAux s.toList []

/-- Loop body of load_mapping for one whitespace-split line, in the
source's evaluation order: line.first().unwrap(), split_once on the first
dash, line.get(1).unwrap() (perms), line.get(2).unwrap() (offset text),
then the struct fields: the two address halves and the offset parsed as
hexadecimal with expect, the five permission flags read positionally via
str::get, device and inode unwrapped, pathname optional. Every unwrap or
expect failure is a panic, modelled as Except.error. -/
def parseMapsLine (line : List String) : Except String Maps :=
  match line.head? with
  | none => Except.error "Option.unwrap on None"
  | some addr_block =>
    match splitOnce addr_block '-' with
    | none => Except.error "Failed to read address block"
    | some (startStr, endStr) =>
      match line.get? 1 with
      | none => Except.error "Option.unwrap on None"
      | some perms =>
        match line.get? 2 with
        | none => Except.error "Option.unwrap on None"
        | some offsetStr =>
          match fromStrRadix16 startStr with
          | Except.error _ => Except.error "failed to parse start addr."
          | Except.ok startv =>
            match fromStrRadix16 endStr with
            | Except.error _ => Except.error "failed to parse end addr."
            | Except.ok endv =>
              match fromStrRadix16 offsetStr with
              | Except.error _ => Except.error "failed to parse offset."
              | Except.ok offv =>
                match line.get? 3 with
                | none => Except.error "Option.unwrap on None"
                | some deviceStr =>
                  match line.get? 4 with
                  | none => Except.error "Option.unwrap on None"
                  | some inodeStr =>
                    Except.ok
                      { start := startv
                        end_ := endv
                        r := decide (strGet perms 0 1 = some "r")
                        w := decide (strGet perms 1 2 = some "w")
                        x := decide (strGet perms 2 3 = some "x")
                        p := decide (strGet perms 3 4 = some "p")
                        s := decide (strGet perms 3 5 = some "s")
                        offset := offv
                        device := deviceStr
                        inode := inodeStr
                        pathname := line.get? 5 }

/-- The for loop of load_mapping over the split lines: mapping entries are
pushed in line order, and the first panic aborts the whole parse. -/
def load_mapping_lines : List (List String) → Except String (List Maps)
  | [] => Except.ok []
  | l :: rest =>
    match parseMapsLine l with
    | Except.error e => Except.error e
    | Except.ok m =>
      match load_mapping_lines rest with
      | Except.error e => Except.error e
      | Except.ok ms => Except.ok (m :: ms)

/-- load_mapping of the source, with the text of /proc/pid/maps supplied
as the oracle argument raw: lines, split on whitespace, parsed in order. -/
def load_mapping (raw : String) : Except String (List Maps) :=
  load_mapping_lines ((rustLines raw).map splitWhitespace)

/-- Rust usize subtraction a - b as the source's debug build executes it:
the difference when b ≤ a, and the arithmetic-overflow panic otherwise
(a release build would wrap and then abort allocating the huge buffer). -/
def checkedSub (a b : Nat) : Except String Nat :=
  if b ≤ a then Except.ok (a - b) else Except.error "attempt to subtract with overflow"

/-- Exclusion test of read_memory: a region whose pathname starts with
the fixed prefix /usr is skipped (the `dont read these` branch). -/
def excluded (m : Maps) : Bool :=
  match m.pathname with
  | some file => file.startsWith "/usr"
  | none => false

/-- read_mem_slice of the source at element type u8: num_elems is reduced
by offset with saturating_sub (Nat subtraction saturates the same way),
the readFn oracle stands for open + seek + read_exact on /proc/pid/mem,
and read_exact's all-or-nothing contract is the length check: a short
read never yields a partial buffer. -/
def read_mem_slice (readFn : Nat → Nat → Option (List Nat))
    (start_addr num_elems offset : Nat) : Option (List Nat) :=
  let n := num_elems - offset
  match readFn start_addr n with
  | some data => if data.length = n then some data else none
  | none => none

/-- Body of read_memory's region loop for one mapping entry: skip when
not readable, skip when the pathname is excluded, compute
end - start (which can only panic, never wrap, see checkedSub), read the
region, and on a successful read scan it for strings; a failed read
contributes nothing. -/
def processRegion (readFn : Nat → Nat → Option (List Nat)) (m : Maps) :
    Except String (List (Nat × List Nat)) :=
  if m.r = false then Except.ok []
  else if excluded m = true then Except.ok []
  else
    match checkedSub m.end_ m.start with
    | Except.error e => Except.error e
    | Except.ok num_elems =>
      match read_mem_slice readFn m.start num_elems 0 with
      | some data => Except.ok (extract_strings m.start data)
      | none => Except.ok []

/-- read_memory of the source: the loop over the mapping, concatenating
each region's logged strings in order. -/
def read_memory (readFn : Nat → Nat → Option (List Nat)) :
    List Maps → Except String (List (Nat × List Nat))
  | [] => Except.ok []
  | m :: rest =>
    match processRegion readFn m with
    | Except.error e => Except.error e
    | Except.ok out =>
      match read_memory readFn rest with
      | Except.error e => Except.error e
      | Except.ok outs => Except.ok (out ++ outs)

/-- Wait status returned by nix waitpid, reduced to the constructors the
match in dump distinguishes: Stopped, and the statuses its wildcard arm
collapses (payloads are never inspected and are omitted). -/
inductive WaitStatus where
  | stopped : WaitStatus
  | exited : WaitStatus
  | signaled : WaitStatus
  | continued : WaitStatus
deriving DecidableEq, Repr

/-- The Mem struct of the source: target pid and the stored mapping. -/
structure Mem where
  pid : Nat
  mapping : List Maps
deriving DecidableEq, Repr

/-- Everything observable about one dump call: the final Mem value, the
strings logged by read_memory, whether the memory-read phase ran, and
whether ptrace::detach was called. -/
structure DumpOutcome where
  mem : Mem
  outputs : List (Nat × List Nat)
  memoryRead : Bool
  detached : Bool
deriving DecidableEq, Repr

/-- dump of the source. Oracles: attachOk is the success of
ptrace::attach (expect panics on failure), waitRes the result of waitpid,
raw the text of /proc/pid/maps, readFn the memory reader, detachOk the
success of ptrace::detach (expect panics on failure). On the Stopped
status the mapping is parsed and stored, taken out (std::mem::take) into
old_mapping leaving the field empty, memory is read from old_mapping,
the field is restored from old_mapping, and detach runs. A waitpid error
is only logged, and any other status hits the wildcard arm: both return
Ok(()) with nothing else done - no read and no detach. -/
def dump (attachOk : Bool) (waitRes : Except String WaitStatus) (raw : String)
    (readFn : Nat → Nat → Option (List Nat)) (detachOk : Bool) (m : Mem) :
    Except String DumpOutcome :=
  if attachOk = false then Except.error "failed to attach to pid."
  else
    match waitRes with
    | Except.ok WaitStatus.stopped =>
      match load_mapping raw with
      | Except.error e => Except.error e
      | Except.ok parsed =>
        let old_mapping := parsed
        match read_memory readFn old_mapping with
        | Except.error e => Except.error e
        | Except.ok outs =>
          if detachOk = false then Except.error "failed to detach pid."
          else Except.ok ⟨⟨m.pid, old_mapping⟩, outs, true, true⟩
    | Except.error _ => Except.ok ⟨m, [], false, false⟩
    | Except.ok _ => Except.ok ⟨m, [], false, false⟩

/-! Specification-side definitions, in the words of the spec: printable
ASCII is a byte value in the inclusive range 32-126, and a reportable
string is a maximal contiguous run of such bytes. -/

/-- Printable ASCII in the spec's words: value in the inclusive range
32-126. -/
def specPrintable (b : Nat) : Prop := 32 ≤ b ∧ b ≤ 126

/-- A maximal printable run of the spec: len printable bytes starting at
offset off, delimited on each side by the buffer bounds or by a
non-printable byte. -/
def isMaxRun (data : List Nat) (off len : Nat) : Prop :=
  0 < len ∧ off + len ≤ data.length ∧
  (∀ j, off ≤ j → j < off + len → specPrintable (data.getD j 0)) ∧
  (off = 0 ∨ ¬ specPrintable (data.getD (off - 1) 0)) ∧
  (off + len = data.length ∨ ¬ specPrintable (data.getD (off + len) 0))

/-! Helper lemmas. -/

lemma printable_iff_spec (b : Nat) : printable b = true ↔ specPrintable b := by
  unfold printable specPrintable
  simp only [Bool.and_eq_true, decide_eq_true_eq]
  omega

lemma printable_false_iff (b : Nat) : printable b = false ↔ ¬ specPrintable b := by
  rw [← printable_iff_spec]
  cases h : printable b <;> simp

lemma getD_out (d : List Nat) (j : Nat) (h : d.length ≤ j) : d.getD j 0 = 0 := by
  induction d generalizing j with
  | nil => simp [List.getD_nil]
  | cons a t ih =>
    cases j with
    | zero => simp at h
    | succ j' =>
      rw [List.getD_cons_succ]
      exact ih j' (by simpa using h)

lemma getD_drop (d : List Nat) (i k : Nat) : (d.drop i).getD k 0 = d.getD (i + k) 0 := by
  induction d generalizing i with
  | nil => simp [List.getD_nil]
  | cons a t ih =>
    cases i with
    | zero => simp
    | succ i' =>
      have he : i' + 1 + k = (i' + k) + 1 := by omega
      rw [he, List.getD_cons_succ, List.drop_succ_cons]
      exact ih i'

lemma countRun0_le (l : List Nat) : countRun0 l ≤ l.length := by
  induction l with
  | nil => simp [countRun0]
  | cons b t ih =>
    cases h : printable b with
    | true => simp [countRun0, h]; omega
    | false => simp [countRun0, h]

lemma countRun0_interior (l : List Nat) : ∀ k, k < countRun0 l → printable (l.getD k 0) = true := by
  induction l with
  | nil => intro k hk; simp [countRun0] at hk
  | cons b t ih =>
    intro k hk
    cases h : printable b with
    | true =>
      cases k with
      | zero => simpa [List.getD_cons_zero] using h
      | succ k' =>
        rw [List.getD_cons_succ]
        apply ih
        simp [countRun0, h] at hk
        omega
    | false => simp [countRun0, h] at hk

lemma countRun0_boundary (l : List Nat) : printable (l.getD (countRun0 l) 0) = false := by
  induction l with
  | nil => decide
  | cons b t ih =>
    cases h : printable b with
    | true => simpa [countRun0, h, List.getD_cons_succ] using ih
    | false => simp [countRun0, h, List.getD_cons_zero]

lemma countRun0_det (l : List Nat) : ∀ n, (∀ k, k < n → printable (l.getD k 0) = true) →
    printable (l.getD n 0) = false → countRun0 l = n := by
  induction l with
  | nil =>
    intro n hint _
    cases n with
    | zero => rfl
    | succ n' => exact absurd (hint 0 (by omega)) (by simp [List.getD_nil]; decide)
  | cons b t ih =>
    intro n hint hbnd
    cases n with
    | zero =>
      rw [List.getD_cons_zero] at hbnd
      simp [countRun0, hbnd]
    | succ n' =>
      have hb : printable b = true := by
        simpa [List.getD_cons_zero] using hint 0 (by omega)
      have ht : countRun0 t = n' := by
        apply ih n'
        · intro k hk
          simpa [List.getD_cons_succ] using hint (k + 1) (by omega)
        · simpa [List.getD_cons_succ] using hbnd
      simp [countRun0, hb, ht]

lemma countRun_interior (data : List Nat) (i k : Nat) (hk : k < countRun data i) :
    printable (data.getD (i + k) 0) = true := by
  rw [← getD_drop]
  exact countRun0_interior _ k hk

lemma countRun_boundary (data : List Nat) (i : Nat) :
    printable (data.getD (i + countRun data i) 0) = false := by
  rw [← getD_drop]
  exact countRun0_boundary _

lemma countRun_le (data : List Nat) (i : Nat) : countRun data i ≤ data.length - i := by
  have h := countRun0_le (data.drop i)
  simpa [List.length_drop] using h

lemma isMaxRun_countRun (data : List Nat) (off len : Nat) (h : isMaxRun data off len) :
    countRun data off = len := by
  obtain ⟨hpos, hle, hint, _, hbnd⟩ := h
  unfold countRun
  apply countRun0_det
  · intro k hk
    rw [getD_drop, printable_iff_spec]
    exact hint (off + k) (by omega) (by omega)
  · rw [getD_drop]
    rcases hbnd with hb | hb
    · rw [getD_out data _ (by omega)]; decide
    · rw [printable_false_iff]; exact hb

lemma no_run_inside (data : List Nat) (i off len : Nat) (hmax : isMaxRun data off len)
    (h1 : i < off) (h2 : off < i + countRun data i) : False := by
  rcases hmax.2.2.2.1 with h0 | hp
  · omega
  · have ht : printable (data.getD (off - 1) 0) = true := by
      have he : off - 1 = i + (off - 1 - i) := by omega
      rw [he]
      exact countRun_interior data i _ (by omega)
    rw [printable_iff_spec] at ht
    exact hp ht

lemma run_position (data : List Nat) (i off len : Nat) (hmax : isMaxRun data off len)
    (hio : i ≤ off) : (off = i ∧ len = countRun data i) ∨ i + countRun data i ≤ off := by
  rcases Nat.lt_or_ge off (i + countRun data i) with hlt | hge
  · left
    have hoff : off = i := by
      by_contra hne
      exact no_run_inside data i off len hmax (by omega) hlt
    subst hoff
    exact ⟨rfl, (isMaxRun_countRun data off len hmax).symm⟩
  · right; exact hge

lemma nextPos_gt (data : List Nat) (i : Nat) : i < nextPos data i := by
  unfold nextPos
  split <;> omega

lemma scanAux_fuel_irrel (base : Nat) (data : List Nat) :
    ∀ f g i, data.length - i ≤ f → data.length - i ≤ g →
      scanAux base data i f = scanAux base data i g := by
  intro f
  induction f with
  | zero =>
    intro g i h1 _
    have hi : ¬ i < data.length := by omega
    cases g with
    | zero => rfl
    | succ h => simp [scanAux, hi]
  | succ f ih =>
    intro g i h1 h2
    by_cases hi : i < data.length
    · obtain ⟨h, rfl⟩ : ∃ h, g = h + 1 := ⟨g - 1, by omega⟩
      simp only [scanAux]
      rw [if_pos hi, if_pos hi]
      congr 1
      have hp := nextPos_gt data i
      exact ih h (nextPos data i) (by omega) (by omega)
    · cases g with
      | zero => simp [scanAux, hi]
      | succ h => simp [scanAux, hi]

/-- Membership characterization of the scan loop from any loop entry
state: i is 0 or sits just after a non-printable byte or on one, and the
loop from i with enough fuel reports exactly the maximal printable runs
of length at least 4 that start at or after i. -/
lemma scanAux_mem_iff (base : Nat) (data : List Nat) :
    ∀ fuel i, data.length - i ≤ fuel →
      (i = 0 ∨ printable (data.getD (i - 1) 0) = false ∨
        printable (data.getD i 0) = false) →
      ∀ a s, ((a, s) ∈ scanAux base data i fuel ↔
        ∃ off len, i ≤ off ∧ isMaxRun data off len ∧ 4 ≤ len ∧
          a = base + off ∧ s = (data.drop off).take len) := by
  intro fuel
  induction fuel with
  | zero =>
    intro i hle _ a s
    constructor
    · intro h
      simp [scanAux] at h
    · rintro ⟨off, len, hio, ⟨hpos, hlen, -, -, -⟩, -, -, -⟩
      omega
  | succ f ih =>
    intro i hle hinv a s
    by_cases hi : i < data.length
    · simp only [scanAux]
      rw [if_pos hi]
      rcases Nat.eq_zero_or_pos (countRun data i) with hr | hr
      · -- the byte at i is not printable: the loop advances one byte
        have hbi : printable (data.getD i 0) = false := by
          simpa [hr] using countRun_boundary data i
        have hnp : nextPos data i = i + 1 := by
          simp [nextPos, hr]
        have hrep : ¬ 4 ≤ countRun data i := by omega
        rw [if_neg hrep, hnp, List.nil_append]
        rw [ih (i + 1) (by omega) (Or.inr (Or.inl (by simpa using hbi))) a s]
        constructor
        · rintro ⟨off, len, hio, hmax, h4, ha, hs⟩
          exact ⟨off, len, by omega, hmax, h4, ha, hs⟩
        · rintro ⟨off, len, hio, hmax, h4, ha, hs⟩
          refine ⟨off, len, ?_, hmax, h4, ha, hs⟩
          rcases Nat.eq_or_lt_of_le hio with heq | hlt
          · exfalso
            have hlen := isMaxRun_countRun data off len hmax
            rw [← heq] at hlen
            omega
          · omega
      · -- a run of positive length starts at i and is maximal
        have hmaxi : isMaxRun data i (countRun data i) := by
          refine ⟨hr, ?_, ?_, ?_, ?_⟩
          · have := countRun_le data i
            omega
          · intro j hj1 hj2
            rw [← printable_iff_spec]
            have he : j = i + (j - i) := by omega
            rw [he]
            exact countRun_interior data i (j - i) (by omega)
          · rcases hinv with h0 | hp | hcontra
            · exact Or.inl h0
            · exact Or.inr ((printable_false_iff _).mp hp)
            · exfalso
              have := countRun_interior data i 0 (by omega)
              simp only [Nat.add_zero] at this
              rw [hcontra] at this
              exact Bool.false_ne_true this
          · exact Or.inr ((printable_false_iff _).mp (countRun_boundary data i))
        have hnp : nextPos data i = i + countRun data i := by
          unfold nextPos
          rw [if_neg (by omega)]
        have hrec := ih (i + countRun data i) (by omega)
          (Or.inr (Or.inr (countRun_boundary data i))) a s
        rw [hnp, List.mem_append, hrec]
        by_cases h4r : 4 ≤ countRun data i
        · rw [if_pos h4r]
          constructor
          · rintro (hrep | ⟨off, len, hio, hmax, h4, ha, hs⟩)
            · rw [List.mem_singleton, Prod.mk.injEq] at hrep
              exact ⟨i, countRun data i, le_refl i, hmaxi, h4r, hrep.1, hrep.2⟩
            · exact ⟨off, len, by omega, hmax, h4, ha, hs⟩
          · rintro ⟨off, len, hio, hmax, h4, ha, hs⟩
            rcases run_position data i off len hmax hio with ⟨hoff, hlen⟩ | hge
            · left
              rw [List.mem_singleton, Prod.mk.injEq]
              subst hoff
              rw [← hlen]
              exact ⟨ha, hs⟩
            · right
              exact ⟨off, len, hge, hmax, h4, ha, hs⟩
        · rw [if_neg h4r]
          simp only [List.not_mem_nil, false_or]
          constructor
          · rintro ⟨off, len, hio, hmax, h4, ha, hs⟩
            exact ⟨off, len, by omega, hmax, h4, ha, hs⟩
          · rintro ⟨off, len, hio, hmax, h4, ha, hs⟩
            rcases run_position data i off len hmax hio with ⟨hoff, hlen⟩ | hge
            · omega
            · exact ⟨off, len, hge, hmax, h4, ha, hs⟩
    · simp only [scanAux]
      rw [if_neg hi]
      constructor
      · intro h
        simp at h
      · rintro ⟨off, len, hio, ⟨hpos, hlen, -, -, -⟩, -, -, -⟩
        omega

/-! Parser helper lemmas. -/

lemma splitOnceAux_none (sep : Char) : ∀ l : List Char, sep ∉ l → splitOnceAux sep l = none := by
  intro l hl
  induction l with
  | nil => rfl
  | cons c cs ih =>
    have hc : ¬ c = sep := by
      intro h
      exact hl (h ▸ List.mem_cons_self c cs)
    have ht : splitOnceAux sep cs = none := ih (fun h => hl (List.mem_cons_of_mem c h))
    simp [splitOnceAux, hc, ht]

lemma strGet_3_5_ne (perms : String) : strGet perms 3 5 ≠ some "s" := by
  unfold strGet
  by_cases hb : 3 ≤ 5 ∧ 5 ≤ perms.length
  · rw [if_pos hb]
    intro h
    injection h with h1
    have hlen := congrArg String.length h1
    have hs1 : ("s" : String).length = 1 := rfl
    simp only [hs1, String.length, List.length_take, List.length_drop,
      List.length_singleton] at hlen
    have hmin : (5 - 3) ⊓ (perms.toList.length - 3) =
        min (5 - 3) (perms.toList.length - 3) := rfl
    rw [hmin] at hlen
    have hp : perms.length = perms.toList.length := rfl
    rw [hp] at hb
    omega
  · rw [if_neg hb]
    simp

lemma parseMapsLine_s_false (line : List String) (m : Maps)
    (h : parseMapsLine line = Except.ok m) : m.s = false := by
  unfold parseMapsLine at h
  repeat' split at h
  any_goals exact Except.noConfusion h
  injection h with hm
  rw [← hm]
  dsimp only
  rw [decide_eq_false_iff_not]
  exact strGet_3_5_ne _

lemma parseMapsLine_pathname (line : List String) (m : Maps)
    (h : parseMapsLine line = Except.ok m) : m.pathname = line.get? 5 := by
  unfold parseMapsLine at h
  repeat' split at h
  any_goals exact Except.noConfusion h
  injection h with hm
  rw [← hm]

/-- C2: for every byte buffer and address base, string extraction reports
exactly the maximal contiguous runs of bytes in the inclusive range
32-126 that have length at least 4, each tagged base plus the run's
start offset, and discards every shorter run; on the buffer
"ab\x01cdef\x02ghi" the only report is "cdef" at offset 3. -/
theorem c2_string_extraction (base : Nat) (data : List Nat) :
    (∀ a s, ((a, s) ∈ extract_strings base data ↔
      ∃ off len, isMaxRun data off len ∧ 4 ≤ len ∧
        a = base + off ∧ s = (data.drop off).take len)) ∧
    extract_strings base [97, 98, 1, 99, 100, 101, 102, 2, 103, 104, 105] =
      [(base + 3, [99, 100, 101, 102])] := by
  constructor
  · intro a s
    unfold extract_strings
    rw [scanAux_mem_iff base data data.length 0 (by omega) (Or.inl rfl) a s]
    simp only [Nat.zero_le, true_and]
  · simp [extract_strings, scanAux, countRun, countRun0, nextPos, printable]

/-- C9: the scan makes strict forward progress: the next index always
exceeds i, equals i + 1 exactly when the byte at i fails the printable
predicate (a zero-length run), and data.length - i iterations of fuel
always compute the loop, so the scan is one terminating linear
left-to-right pass. -/
theorem c9_linear_pass (base : Nat) (data : List Nat) (i : Nat) :
    (i < nextPos data i) ∧
    (printable (data.getD i 0) = false → nextPos data i = i + 1) ∧
    (∀ fuel, data.length - i ≤ fuel →
      scanAux base data i fuel = scanAux base data i (data.length - i)) := by
  refine ⟨nextPos_gt data i, ?_, ?_⟩
  · intro h
    have hr : countRun data i = 0 := by
      by_contra hne
      have hp := countRun_interior data i 0 (by omega)
      simp only [Nat.add_zero] at hp
      rw [h] at hp
      exact Bool.false_ne_true hp
    simp [nextPos, hr]
  · intro fuel hf
    exact scanAux_fuel_irrel base data fuel (data.length - i) i hf (le_refl _)

/-- C1: evaluation of the mapping parser on the claim's three permission
strings, plus the general fact behind the divergence. "rwxp" and "----"
come out as the claim says, but "r--s" yields s = false: the source
computes s as perms.get(3..5) == Some("s"), and get(3..5) is out of
bounds on every 4-character string (and a 2-byte slice on longer ones),
so the shared flag is false for every input, against the claim and the
Maps field's own documentation. -/
theorem c1_positional_flags :
    load_mapping_lines [["400000-401000", "rwxp", "0", "00:00", "0"]] =
      Except.ok [⟨0x400000, 0x401000, true, true, true, true, false, 0, "00:00", "0", none⟩] ∧
    load_mapping_lines [["400000-401000", "r--s", "0", "00:00", "0"]] =
      Except.ok [⟨0x400000, 0x401000, true, false, false, false, false, 0, "00:00", "0", none⟩] ∧
    load_mapping_lines [["400000-401000", "----", "0", "00:00", "0"]] =
      Except.ok [⟨0x400000, 0x401000, false, false, false, false, false, 0, "00:00", "0", none⟩] ∧
    (∀ line m, parseMapsLine line = Except.ok m → m.s = false) :=
  ⟨rfl, rfl, rfl, parseMapsLine_s_false⟩

/-- C3: a region whose read fails (read_exact error or short read, both
of which make read_mem_slice return none) is skipped entirely and the
scan over every remaining region proceeds exactly as if the failing
region were absent; one region's failure never aborts the rest. -/
theorem c3_region_isolation (readFn : Nat → Nat → Option (List Nat))
    (ms1 ms2 : List Maps) (mk : Maps)
    (hwf : mk.start ≤ mk.end_)
    (hfail : read_mem_slice readFn mk.start (mk.end_ - mk.start) 0 = none) :
    read_memory readFn (ms1 ++ mk :: ms2) = read_memory readFn (ms1 ++ ms2) := by
  have hmk : processRegion readFn mk = Except.ok [] := by
    unfold processRegion
    by_cases hr : mk.r = false
    · rw [if_pos hr]
    · rw [if_neg hr]
      by_cases he : excluded mk = true
      · rw [if_pos he]
      · rw [if_neg he]
        have hsub : checkedSub mk.end_ mk.start = Except.ok (mk.end_ - mk.start) := by
          unfold checkedSub
          rw [if_pos hwf]
        simp only [hsub, hfail]
  induction ms1 with
  | nil =>
    simp only [List.nil_append, read_memory, hmk]
    cases read_memory readFn ms2 <;> simp
  | cons m t ih =>
    simp only [List.cons_append, read_memory, List.append_eq, ih]

/-- Witness for C3: a concrete failing region between none and a working
tail, with its two hypotheses discharged by evaluation. -/
theorem c3_witness :
    (⟨0, 4, true, false, false, true, false, 0, "00:00", "0", none⟩ : Maps).start ≤
      (⟨0, 4, true, false, false, true, false, 0, "00:00", "0", none⟩ : Maps).end_ ∧
    read_mem_slice (fun a n => if a = 100 then some (List.replicate n 65) else none)
      0 4 0 = none ∧
    read_memory (fun a n => if a = 100 then some (List.replicate n 65) else none)
      ([] ++ (⟨0, 4, true, false, false, true, false, 0, "00:00", "0", none⟩ : Maps) ::
        [⟨100, 104, true, false, false, true, false, 0, "00:00", "0", none⟩]) =
    read_memory (fun a n => if a = 100 then some (List.replicate n 65) else none)
      ([] ++ [⟨100, 104, true, false, false, true, false, 0, "00:00", "0", none⟩]) :=
  ⟨by decide, rfl,
    c3_region_isolation (fun a n => if a = 100 then some (List.replicate n 65) else none)
      [] [⟨100, 104, true, false, false, true, false, 0, "00:00", "0", none⟩]
      ⟨0, 4, true, false, false, true, false, 0, "00:00", "0", none⟩ (by decide) rfl⟩

/-- C4 counterexample: with a successful attach and a waitpid result of
Exited, dump reads no memory but also calls no detach: the wildcard arm
does nothing and dump returns success with the target still attached,
against the claim that it proceeds directly to detach. -/
theorem c4_counterexample :
    dump true (Except.ok WaitStatus.exited) "400000-401000 r--p 0 00:00 0"
      (fun _ _ => none) true ⟨5, []⟩ =
      Except.ok ⟨⟨5, []⟩, [], false, false⟩ ∧
    Except.map DumpOutcome.detached
      (dump true (Except.ok WaitStatus.exited) "400000-401000 r--p 0 00:00 0"
        (fun _ _ => none) true ⟨5, []⟩) = Except.ok false :=
  ⟨rfl, rfl⟩

/-- C4 amended: whenever the post-attach wait does not return the
expected Stopped status (another status or a waitpid error), the
operation reads no memory, leaves the stored mapping unchanged, performs
no detach, and returns success: the target is left attached, not
resumed. -/
theorem c4_nonstopped_no_detach (waitRes : Except String WaitStatus)
    (hws : waitRes ≠ Except.ok WaitStatus.stopped) (raw : String)
    (readFn : Nat → Nat → Option (List Nat)) (detachOk : Bool) (m : Mem) :
    dump true waitRes raw readFn detachOk m = Except.ok ⟨m, [], false, false⟩ := by
  unfold dump
  rw [if_neg (by simp)]
  cases waitRes with
  | error e => rfl
  | ok ws =>
    cases ws with
    | stopped => exact absurd rfl hws
    | exited => rfl
    | signaled => rfl
    | continued => rfl

/-- Witness for C4's amended theorem at the Exited status. -/
theorem c4_witness :
    dump true (Except.ok WaitStatus.exited) "" (fun _ _ => none) true ⟨5, []⟩ =
      Except.ok ⟨⟨5, []⟩, [], false, false⟩ :=
  c4_nonstopped_no_detach (Except.ok WaitStatus.exited) (by simp) ""
    (fun _ _ => none) true ⟨5, []⟩

/-- C5 counterexample: a line holding only the address range and the
permission string (file offset, device, inode and path all absent) does
not parse with empty fields: the offset unwrap panics, against the claim
that all missing trailing fields are tolerated. -/
theorem c5_counterexample :
    load_mapping_lines [["400000-401000", "r--p"]] =
      Except.error "Option.unwrap on None" :=
  rfl

/-- C5 amended: only the trailing path is optional: every successful
parse takes pathname straight from the (possibly absent) sixth field, a
five-field line parses with pathname = none and no error, and a line
missing the inode or the offset field panics. -/
theorem c5_optional_fields :
    (∀ line m, parseMapsLine line = Except.ok m → m.pathname = line.get? 5) ∧
    load_mapping_lines [["400000-401000", "r--p", "0", "00:00", "0"]] =
      Except.ok [⟨0x400000, 0x401000, true, false, false, true, false, 0, "00:00", "0", none⟩] ∧
    load_mapping_lines [["400000-401000", "r--p", "0", "00:00"]] =
      Except.error "Option.unwrap on None" ∧
    load_mapping_lines [["400000-401000", "r--p", "0"]] =
      Except.error "Option.unwrap on None" :=
  ⟨parseMapsLine_pathname, rfl, rfl, rfl⟩

/-- C6 counterexample: an inverted region (end < start) that is readable
and not excluded is not skipped: the size computation end - start
underflows and the whole read aborts, against the claim. -/
theorem c6_counterexample :
    read_memory (fun _ _ => some [])
      [⟨0x1000, 0xfff, true, false, false, true, false, 0, "00:00", "0", none⟩] =
      Except.error "attempt to subtract with overflow" ∧
    read_memory (fun _ _ => some [])
      [⟨0x1000, 0xfff, true, false, false, true, false, 0, "00:00", "0", none⟩] ≠
      Except.ok [] :=
  ⟨rfl, by simp [read_memory, processRegion, excluded, checkedSub, read_mem_slice]⟩

/-- C6 amended: the region size is end - start in unsigned arithmetic
with no inversion guard. For every region with start ≤ end the
subtraction cannot underflow and processing succeeds (a zero-length
region reads zero bytes and contributes nothing, it is not treated as
infinite); an inverted region makes the subtraction fail instead of
being skipped (see the counterexample). -/
theorem c6_region_size (readFn : Nat → Nat → Option (List Nat)) (m : Maps)
    (h : m.start ≤ m.end_) :
    (∃ out, processRegion readFn m = Except.ok out) ∧
    (m.end_ = m.start → processRegion readFn m = Except.ok []) := by
  have hsub : checkedSub m.end_ m.start = Except.ok (m.end_ - m.start) := by
    unfold checkedSub
    rw [if_pos h]
  constructor
  · unfold processRegion
    by_cases hr : m.r = false
    · rw [if_pos hr]
      exact ⟨[], rfl⟩
    · rw [if_neg hr]
      by_cases he : excluded m = true
      · rw [if_pos he]
        exact ⟨[], rfl⟩
      · rw [if_neg he]
        simp only [hsub]
        cases hread : read_mem_slice readFn m.start (m.end_ - m.start) 0 with
        | some data => exact ⟨extract_strings m.start data, by simp⟩
        | none => exact ⟨[], by simp⟩
  · intro he0
    unfold processRegion
    by_cases hr : m.r = false
    · rw [if_pos hr]
    · rw [if_neg hr]
      by_cases he : excluded m = true
      · rw [if_pos he]
      · rw [if_neg he]
        simp only [hsub]
        have h0 : m.end_ - m.start = 0 := by omega
        rw [h0]
        unfold read_mem_slice
        simp only [Nat.sub_zero]
        cases hread : readFn m.start 0 with
        | some d =>
          cases d with
          | nil => simp [extract_strings, scanAux]
          | cons x xs => simp
        | none => simp

/-- Witness for C6's amended theorem: a well-formed region and a
zero-length region, hypotheses discharged by evaluation. -/
theorem c6_witness :
    (⟨4096, 4100, true, false, false, true, false, 0, "00:00", "0", none⟩ : Maps).start ≤
      (⟨4096, 4100, true, false, false, true, false, 0, "00:00", "0", none⟩ : Maps).end_ ∧
    (∃ out, processRegion (fun _ _ => some [65, 66, 67, 68])
      ⟨4096, 4100, true, false, false, true, false, 0, "00:00", "0", none⟩ = Except.ok out) ∧
    processRegion (fun _ _ => some [65, 66, 67, 68])
      ⟨4096, 4096, true, false, false, true, false, 0, "00:00", "0", none⟩ =
      Except.ok [] :=
  ⟨by decide,
    (c6_region_size (fun _ _ => some [65, 66, 67, 68])
      ⟨4096, 4100, true, false, false, true, false, 0, "00:00", "0", none⟩ (by decide)).1,
    (c6_region_size (fun _ _ => some [65, 66, 67, 68])
      ⟨4096, 4096, true, false, false, true, false, 0, "00:00", "0", none⟩ (by decide)).2 rfl⟩

/-- C7: a region is read only when it is readable and its backing path
(when present) does not start with /usr: a non-readable region and an
excluded region contribute Except.ok [] regardless of the reader, and
the whole scan result is unchanged by any modification of the reader's
behavior on filtered-out regions: they are never read. -/
theorem c7_region_filtering :
    (∀ (readFn : Nat → Nat → Option (List Nat)) (m : Maps), m.r = false →
      processRegion readFn m = Except.ok []) ∧
    (∀ (readFn : Nat → Nat → Option (List Nat)) (m : Maps), excluded m = true →
      processRegion readFn m = Except.ok []) ∧
    (∀ (readFn readFn' : Nat → Nat → Option (List Nat)) (mapping : List Maps),
      (∀ m ∈ mapping, m.r = true → excluded m = false →
        readFn m.start (m.end_ - m.start) = readFn' m.start (m.end_ - m.start)) →
      read_memory readFn mapping = read_memory readFn' mapping) := by
  refine ⟨?_, ?_, ?_⟩
  · intro readFn m hr
    unfold processRegion
    rw [if_pos hr]
  · intro readFn m he
    unfold processRegion
    by_cases hr : m.r = false
    · rw [if_pos hr]
    · rw [if_neg hr, if_pos he]
  · intro readFn readFn' mapping
    induction mapping with
    | nil => intro h; rfl
    | cons m t ih =>
      intro h
      have hm : processRegion readFn m = processRegion readFn' m := by
        unfold processRegion
        by_cases hr : m.r = false
        · rw [if_pos hr, if_pos hr]
        · rw [if_neg hr, if_neg hr]
          by_cases he : excluded m = true
          · rw [if_pos he, if_pos he]
          · rw [if_neg he, if_neg he]
            have hrt : m.r = true := by
              revert hr
              cases m.r <;> simp
            have het : excluded m = false := by
              revert he
              cases excluded m <;> simp
            have hag := h m (List.mem_cons_self m t) hrt het
            cases hsub : checkedSub m.end_ m.start with
            | error e => rfl
            | ok n =>
              have hn : n = m.end_ - m.start := by
                unfold checkedSub at hsub
                split at hsub
                · injection hsub with h'
                  omega
                · cases hsub
              have hrm : read_mem_slice readFn m.start n 0 =
                  read_mem_slice readFn' m.start n 0 := by
                unfold read_mem_slice
                rw [hn]
                simp only [Nat.sub_zero]
                rw [hag]
              simp only [hrm]
      have ht := ih (fun m' hm' hr' he' => h m' (List.mem_cons_of_mem m hm') hr' he')
      simp only [read_memory, hm, ht]

/-- C8: the first whitespace field is split at the first dash into two
halves parsed as hexadecimal: splitting behaves that way on every
dash-free prefix, "400000-401000" round-trips to start 0x400000 and
end 0x401000 through the full parser, a field without a dash and a field
with non-hexadecimal content are each a parse error, and one bad line
makes the whole mapping parse fail, with no per-line recovery. -/
theorem c8_address_parsing :
    (∀ a b : List Char, '-' ∉ a → splitOnceAux '-' (a ++ '-' :: b) = some (a, b)) ∧
    (∀ s : String, '-' ∉ s.toList → splitOnce s '-' = none) ∧
    fromStrRadix16 "400000" = Except.ok 0x400000 ∧
    fromStrRadix16 "401000" = Except.ok 0x401000 ∧
    load_mapping "400000-401000 rwxp 0 00:00 0" =
      Except.ok [⟨0x400000, 0x401000, true, true, true, true, false, 0, "00:00", "0", none⟩] ∧
    load_mapping_lines [["400000", "rwxp", "0", "00:00", "0"]] =
      Except.error "Failed to read address block" ∧
    load_mapping_lines [["40zz00-401000", "rwxp", "0", "00:00", "0"]] =
      Except.error "failed to parse start addr." ∧
    (∀ pre post bad e, parseMapsLine bad = Except.error e →
      ∀ ms, load_mapping_lines (pre ++ bad :: post) ≠ Except.ok ms) := by
  refine ⟨?_, ?_, rfl, rfl, rfl, rfl, rfl, ?_⟩
  · intro a b ha
    induction a with
    | nil => simp [splitOnceAux]
    | cons c a' ih =>
      have hc : ¬ c = '-' := by
        intro h
        exact ha (h ▸ List.mem_cons_self c a')
      have ht := ih (fun h => ha (List.mem_cons_of_mem c h))
      simp [splitOnceAux, hc, ht]
  · intro s hs
    unfold splitOnce
    rw [splitOnceAux_none '-' s.toList hs]
  · intro pre post bad e hbad
    induction pre with
    | nil =>
      intro ms
      simp only [List.nil_append, load_mapping_lines, hbad]
      simp
    | cons p t ih =>
      intro ms
      simp only [List.cons_append, load_mapping_lines, List.append_eq]
      cases hp : parseMapsLine p with
      | error e' => simp
      | ok m' =>
        cases h2 : load_mapping_lines (t ++ bad :: post) with
        | error e' => simp
        | ok ms' => exact absurd h2 (ih ms')

/-- C10: on the successful stopped-and-read path, dump stores exactly
the parsed region sequence back into the Mem value's mapping field: the
mapping is taken out for the read phase and restored unchanged, so
reading memory leaves the stored snapshot intact. -/
theorem c10_mapping_restored (raw : String)
    (readFn : Nat → Nat → Option (List Nat)) (m : Mem)
    (regions : List Maps) (outs : List (Nat × List Nat))
    (hparse : load_mapping raw = Except.ok regions)
    (hread : read_memory readFn regions = Except.ok outs) :
    dump true (Except.ok WaitStatus.stopped) raw readFn true m =
      Except.ok ⟨⟨m.pid, regions⟩, outs, true, true⟩ := by
  unfold dump
  rw [if_neg (by simp)]
  simp only [hparse, hread]
  rfl

/-- Witness for C10 on a concrete one-line mapping whose single region
read fails (so the scan yields nothing but the path completes). -/
theorem c10_witness :
    load_mapping "400000-401000 r--p 0 00:00 0" =
      Except.ok [⟨0x400000, 0x401000, true, false, false, true, false, 0, "00:00", "0", none⟩] ∧
    read_memory (fun _ _ => none)
      [⟨0x400000, 0x401000, true, false, false, true, false, 0, "00:00", "0", none⟩] =
      Except.ok [] ∧
    dump true (Except.ok WaitStatus.stopped) "400000-401000 r--p 0 00:00 0"
      (fun _ _ => none) true ⟨7, []⟩ =
      Except.ok ⟨⟨7, [⟨0x400000, 0x401000, true, false, false, true, false, 0, "00:00", "0", none⟩]⟩,
        [], true, true⟩ :=
  ⟨rfl, rfl,
    c10_mapping_restored "400000-401000 r--p 0 00:00 0" (fun _ _ => none) ⟨7, []⟩
      [⟨0x400000, 0x401000, true, false, false, true, false, 0, "00:00", "0", none⟩]
      [] rfl rfl⟩

end Seer
